import Mathlib

/-!
Verification of the coverage/recommendation engine of `bot/metrics.py`.

Modelling conventions (shallow embedding):
* Python dicts are association lists `List (String × α)` in insertion order;
  assignment updates an existing key in place or appends a fresh key at the
  end, exactly as CPython dicts do.
* Delivery times are `Option ℚ`: `some q` is a finite time, `none` is the
  `float("inf")` unreachable sentinel.  Upstream validation guarantees that
  finite times reaching the engine are strictly positive, so the `1/q`
  convention of `ℚ` at `q = 0` is never exercised on the engine's domain.
* `defaultdict` reads are modelled as state-passing (`dget`, `dgetD`):
  reading a missing key inserts the default, as CPython does, which is
  observable through the key set of the mapping.
* Weighted averages are computed in `EF`, a model of Python floats with the
  `inf`, `-inf` and `nan` special values and IEEE multiplication/addition
  on them (`0 * inf = nan`, `nan + x = nan`, ...).  Global speeds only ever
  combine finite operands, so they live directly in `ℚ`.
-/

namespace WbBot

/-- Python `m.get(k)`-style lookup in an insertion-ordered dict:
the first entry with the requested key wins. -/
def lookupA : List (String × α) → String → Option α
  | [], _ => none
  | p :: m, k => if p.1 = k then some p.2 else lookupA m k

/-- Python `m.get(k, d)`: lookup with a default. -/
def lookupD (m : List (String × α)) (k : String) (d : α) : α :=
  match lookupA m k with
  | some v => v
  | none => d

/-- Python `m[k] = v` on a dict: update in place if the key exists
(keeping its position), else append at the end. -/
def setA (m : List (String × α)) (k : String) (v : α) : List (String × α) :=
  match m with
  | [] => [(k, v)]
  | (k', v') :: rest => if k' = k then (k, v) :: rest else (k', v') :: setA rest k v

/-- Python `defaultdict` read `m[k]` with default `d`: returns the stored
value, inserting the default first when the key is missing.  The returned
map reflects the insertion side effect. -/
def dgetD (m : List (String × α)) (k : String) (d : α) : α × List (String × α) :=
  match lookupA m k with
  | some v => (v, m)
  | none => (d, m ++ [(k, d)])

/-- Keys of a dict, in insertion order. -/
def keysOf (m : List (String × α)) : List String :=
  m.map Prod.fst

/-- Delivery time: `some q` finite, `none` the `float("inf")` sentinel. -/
abbrev Time := Option ℚ

/-- Python `<` on times (`float` comparison with `inf`). -/
def tLT : Time → Time → Bool
  | some a, some b => a < b
  | some _, none => true
  | none, _ => false

/-- Python `min(x, y)` on times: returns `y` when `y < x`, else `x`. -/
def pyMin (x y : Time) : Time :=
  if tLT y x then y else x

/-- Order on times used in specifications: `a ≤ b` with `none` as `+∞`. -/
def tle : Time → Time → Prop
  | _, none => True
  | none, some _ => False
  | some a, some b => a ≤ b

instance : DecidableRel tle := fun a b => by
  cases a <;> cases b <;> simp [tle] <;> infer_instance

/-- A time is valid when it is the sentinel or strictly positive
(the upstream contract of the engine). -/
def posTime : Time → Prop
  | none => True
  | some q => 0 < q

instance : DecidablePred posTime := fun t =>
  match t with
  | none => isTrue trivial
  | some q => inferInstanceAs (Decidable (0 < q))

/-- Model of a Python float value as produced by the averaging code:
a finite rational, `inf`, `-inf` or `nan`. -/
inductive EF where
  | fin (q : ℚ)
  | inf
  | neginf
  | nan
deriving DecidableEq, Repr

/-- IEEE negation. -/
def eneg : EF → EF
  | EF.fin q => EF.fin (-q)
  | EF.inf => EF.neginf
  | EF.neginf => EF.inf
  | EF.nan => EF.nan

/-- IEEE addition on `EF` values (Python `+` on floats). -/
def eadd : EF → EF → EF
  | EF.nan, _ => EF.nan
  | _, EF.nan => EF.nan
  | EF.inf, EF.neginf => EF.nan
  | EF.neginf, EF.inf => EF.nan
  | EF.inf, _ => EF.inf
  | _, EF.inf => EF.inf
  | EF.neginf, _ => EF.neginf
  | _, EF.neginf => EF.neginf
  | EF.fin a, EF.fin b => EF.fin (a + b)

/-- IEEE subtraction. -/
def esub (a b : EF) : EF :=
  eadd a (eneg b)

/-- Python `w * t` for a finite weight `w` and a time `t`:
`w * inf` is `inf`, `-inf` or `nan` according to the sign of `w`. -/
def wmul (w : ℚ) (t : Time) : EF :=
  match t with
  | some q => EF.fin (w * q)
  | none =>
      if 0 < w then EF.inf
      else if w = 0 then EF.nan
      else EF.neginf

/-- One speed observation row (`speeds_rows` entry of `build_views`).
`time_hours = none` models an absent/`None` time. -/
structure SpeedRow where
  region_code : String
  region_name : String
  warehouse_id : String
  warehouse_name : String
  time_hours : Option ℚ
deriving DecidableEq, Repr

/-- One sales row (`sales_rows` entry of `build_views`). -/
structure SalesRow where
  region_code : String
  orders : ℚ
deriving DecidableEq, Repr

/-- Translation of `_weights(regions, sales)` from `bot/metrics.py`.
`regions` is the iteration order of the observed region set. -/
def pyWeights (regions : List String) (sales : List (String × ℚ)) : List (String × ℚ) :=
  if sales ≠ [] ∧ 0 < (sales.map Prod.snd).sum then
    if 0 < (regions.map (fun r => lookupD sales r 0)).sum then
      regions.map (fun r =>
        (r, lookupD sales r 0 / (regions.map (fun r' => lookupD sales r' 0)).sum))
    else
      regions.map (fun r => (r, 1 / (regions.length : ℚ)))
  else
    regions.map (fun r => (r, 1 / (regions.length : ℚ)))

/-- Speed contribution of a single region time: `0` when unreachable,
`1/t` otherwise (line 43 of `bot/metrics.py`; `t` is never `0` on the
engine's domain, where Python would raise). -/
def speedOf : Time → ℚ
  | none => 0
  | some q => 1 / q

/-- Translation of `_compute_global_speed(region_best_time, weights)`:
fold over the weight items, each adding `w * speed`. -/
def computeGlobalSpeed (region_best_time : List (String × Time))
    (weights : List (String × ℚ)) : ℚ :=
  weights.foldl (fun gs p => gs + p.2 * speedOf (lookupD region_best_time p.1 none)) 0

/-- Translation of `_weighted_avg_time(region_best_time, weights)`:
the sentinel when some strictly-positive-weight region is unreachable,
otherwise the Python float sum of `w * t` (which is `nan` as soon as a
zero-weight unreachable region contributes `0 * inf`). -/
def weightedAvgTime (region_best_time : List (String × Time))
    (weights : List (String × ℚ)) : EF :=
  if ∃ p ∈ weights, lookupD region_best_time p.1 none = none ∧ 0 < p.2 then
    EF.inf
  else
    weights.foldl (fun s p => eadd s (wmul p.2 (lookupD region_best_time p.1 none))) (EF.fin 0)

/-- Mutable state of the row loop of `build_views`. -/
structure BState where
  region_name : List (String × String)
  wh_name : List (String × String)
  best_all : List (String × Time)
  best_active : List (String × Time)
  best_by_wh : List (String × List (String × Time))
deriving Repr

/-- One iteration of the row loop of `build_views` (lines 61-72 of
`bot/metrics.py`), including the `defaultdict` insertion side effects. -/
def buildStep (active_ids : List String) (st : BState) (row : SpeedRow) : BState :=
  let r := row.region_code
  let rn := setA st.region_name r row.region_name
  let w_id := row.warehouse_id
  let wn := setA st.wh_name w_id row.warehouse_name
  let t : Time := row.time_hours
  let pAll := dgetD st.best_all r none
  let bAll := if tLT t pAll.1 then setA pAll.2 r t else pAll.2
  let bAct :=
    if w_id ∈ active_ids then
      let pAct := dgetD st.best_active r none
      if tLT t pAct.1 then setA pAct.2 r t else pAct.2
    else st.best_active
  let pOuter := dgetD st.best_by_wh w_id []
  let pInner := dgetD pOuter.1 r none
  let inner := if tLT t pInner.1 then setA pInner.2 r t else pInner.2
  let bWh := setA pOuter.2 w_id inner
  ⟨rn, wn, bAll, bAct, bWh⟩

/-- The network view returned by `build_views`. -/
structure View where
  region_name : List (String × String)
  best_all : List (String × Time)
  best_active : List (String × Time)
  best_by_wh : List (String × List (String × Time))
  weights : List (String × ℚ)
  global_current : ℚ
  global_opt : ℚ
  coverage : ℚ
  warehouse_names : List (String × String)
  avg_time_current : EF
deriving Repr

/-- State after the whole row loop of `build_views`. -/
def buildState (speeds_rows : List SpeedRow) (active_ids : List String) : BState :=
  speeds_rows.foldl (buildStep active_ids) ⟨[], [], [], [], []⟩

/-- The dict comprehension `{row["region_code"]: float(row["orders"]) for row in
sales_rows}` (line 75): later rows overwrite earlier ones. -/
def salesDict (sales_rows : List SalesRow) : List (String × ℚ) :=
  sales_rows.foldl (fun m row => setA m row.region_code row.orders) []

/-- Translation of `build_views(speeds_rows, active_ids, sales_rows)`. -/
def build_views (speeds_rows : List SpeedRow) (active_ids : List String)
    (sales_rows : List SalesRow) : View :=
  let st := buildState speeds_rows active_ids
  let regions := keysOf st.region_name
  let sales := salesDict sales_rows
  let weights := pyWeights regions sales
  let global_current := computeGlobalSpeed st.best_active weights
  let global_opt := computeGlobalSpeed st.best_all weights
  let coverage := if global_opt = 0 then 0 else global_current / global_opt * 100
  { region_name := st.region_name
    best_all := st.best_all
    best_active := st.best_active
    best_by_wh := st.best_by_wh
    weights := weights
    global_current := global_current
    global_opt := global_opt
    coverage := coverage
    warehouse_names := st.wh_name
    avg_time_current := weightedAvgTime st.best_active weights }

/-- Per-region change record (`RegionView` dataclass). -/
structure RegionView where
  code : String
  name : String
  weight : ℚ
  old_time : Time
  new_time : Time
deriving DecidableEq, Repr

/-- Recommendation record (`Recommendation` dataclass).
`marginal_pct = none` models Python `None`. -/
structure Recommendation where
  warehouse_id : String
  warehouse_name : String
  marginal_abs : ℚ
  marginal_pct : Option ℚ
  coverage_pct : ℚ
  global_speed_current : ℚ
  weighted_avg_time_old : EF
  weighted_avg_time_new : EF
  weighted_avg_time_delta : EF
  region_changes : List RegionView
deriving DecidableEq, Repr

/-- Stable insertion of `a` in front of the first element whose key does
not exceed `a`'s: building block of Python's stable descending sort. -/
def insertDescBy (key : α → ℚ) (a : α) : List α → List α
  | [] => [a]
  | b :: l => if key b ≤ key a then a :: b :: l else b :: insertDescBy key a l

/-- Python `list.sort(key=..., reverse=True)`: stable sort, descending in
the key, equal keys kept in the original order. -/
def sortDescBy (key : α → ℚ) : List α → List α
  | [] => []
  | a :: l => insertDescBy key a (sortDescBy key l)

/-- The `new_best` loop of `recommend_next` (lines 102-103): for every
region of `view["region_name"]`, `new_best[r] = min(view["best_active"][r],
by_region.get(r, inf))`, where the read of the `best_active` defaultdict is
threaded through the accumulator's second component. -/
def newBestFold (by_region : List (String × Time)) :
    List (String × String) → List (String × Time) × List (String × Time) →
      List (String × Time) × List (String × Time)
  | [], acc => acc
  | q :: rest, acc =>
      let p := dgetD acc.2 q.1 none
      newBestFold by_region rest
        (setA acc.1 q.1 (pyMin p.1 (lookupD by_region q.1 none)), p.2)

/-- The region-changes loop of `recommend_next` (lines 112-116): record a
change for every region whose new best time strictly improves, again
threading the `best_active` defaultdict reads. -/
def changesFold (weights : List (String × ℚ)) (new_best : List (String × Time)) :
    List (String × String) → List RegionView × List (String × Time) →
      List RegionView × List (String × Time)
  | [], acc => acc
  | q :: rest, acc =>
      let p := dgetD acc.2 q.1 none
      let new_t := lookupD new_best q.1 none
      changesFold weights new_best rest
        (if tLT new_t p.1 then
          (acc.1 ++ [⟨q.1, q.2, lookupD weights q.1 0, p.1, new_t⟩], p.2)
        else (acc.1, p.2))

/-- Body of the candidate loop of `recommend_next` (lines 101-131 of
`bot/metrics.py`) for one inactive warehouse, threading the `defaultdict`
state of `view["best_active"]`.  Returns the recommendation and the
updated `best_active`. -/
def mkRec (view : View) (ba : List (String × Time)) (w_id : String)
    (by_region : List (String × Time)) :
    Recommendation × List (String × Time) :=
  let nb := newBestFold by_region view.region_name ([], ba)
  let new_best := nb.1
  let ba₁ := nb.2
  let new_global := computeGlobalSpeed new_best view.weights
  let marginal_abs := new_global - view.global_current
  let marginal_pct :=
    if view.global_current = 0 then none
    else some (marginal_abs / view.global_current * 100)
  let old_avg := weightedAvgTime ba₁ view.weights
  let new_avg := weightedAvgTime new_best view.weights
  let ch := changesFold view.weights new_best view.region_name ([], ba₁)
  let changes := ch.1
  let ba₂ := ch.2
  (⟨w_id, lookupD view.warehouse_names w_id "",
    marginal_abs, marginal_pct,
    (if view.global_opt = 0 then 0 else new_global / view.global_opt * 100),
    view.global_current, old_avg, new_avg,
    (if old_avg ≠ EF.inf ∧ new_avg ≠ EF.inf then esub new_avg old_avg else EF.inf),
    sortDescBy (fun x => x.weight) changes⟩, ba₂)

/-- The candidate loop of `recommend_next` over the remaining entries of
`view["best_by_wh"]`: active warehouses are skipped, each inactive one
appends a recommendation. -/
def candList (view : View) (active_ids : List String) :
    List (String × List (String × Time)) →
      List Recommendation × List (String × Time) →
        List Recommendation × List (String × Time)
  | [], acc => acc
  | p :: rest, acc =>
      if p.1 ∈ active_ids then candList view active_ids rest acc
      else
        let rb := mkRec view acc.2 p.1 p.2
        candList view active_ids rest (acc.1 ++ [rb.1], rb.2)

/-- The unsorted candidate list of `recommend_next` (loop of lines
98-131), together with the final `best_active` state. -/
def candidates (view : View) (active_ids : List String) :
    List Recommendation × List (String × Time) :=
  candList view active_ids view.best_by_wh ([], view.best_active)

/-- Translation of `recommend_next(view, active_ids, top_n)`: sort the
candidates descending by `marginal_abs` (stable) and keep the first
`top_n`.  The second component is the view as left behind by the call,
reflecting the `defaultdict` insertions into `best_active`. -/
def recommend_next (view : View) (active_ids : List String) (top_n : ℕ) :
    List Recommendation × View :=
  let cs := candidates view active_ids
  ((sortDescBy (fun r => r.marginal_abs) cs.1).take top_n,
    { view with best_active := cs.2 })

/-- The `new_best` mapping computed inside `mkRec`. -/
def mkRecNewBest (view : View) (ba : List (String × Time))
    (by_region : List (String × Time)) : List (String × Time) :=
  (newBestFold by_region view.region_name ([], ba)).1

/-- Pointwise comparison invariant of the row loop of `build_views`. -/
def StTle (st : BState) : Prop :=
  (∀ x, tle (lookupD st.best_all x none) (lookupD st.best_active x none)) ∧
  (∀ p ∈ st.best_by_wh, ∀ x, tle (lookupD st.best_all x none) (lookupD p.2 x none))

/-- Positivity invariant of the row loop of `build_views`. -/
def StPos (st : BState) : Prop :=
  (∀ x, posTime (lookupD st.best_all x none)) ∧
  (∀ x, posTime (lookupD st.best_active x none)) ∧
  (∀ p ∈ st.best_by_wh, ∀ x, posTime (lookupD p.2 x none))

/-- Spec reading of the weight rule (for comparison with `pyWeights`):
branch on `sales` having at least one strictly positive entry anywhere,
then weight every observed region by `sales.get(r, 0)` over the sales sum
across the observed regions; otherwise uniform. -/
def weightsSpecC3 (regions : List String) (sales : List (String × ℚ)) :
    List (String × ℚ) :=
  if ∃ p ∈ sales, 0 < p.2 then
    regions.map (fun r =>
      (r, lookupD sales r 0 / (regions.map (fun r' => lookupD sales r' 0)).sum))
  else
    regions.map (fun r => (r, 1 / (regions.length : ℚ)))

/-- Placeholder recommendation used to read off elements of result lists
in concrete instantiations. -/
def recDefault : Recommendation :=
  ⟨"", "", 0, none, 0, 0, EF.fin 0, EF.fin 0, EF.fin 0, []⟩

/-- Concrete fixture: a single observation (region `msk`, warehouse `1`,
one hour). -/
def tinyRows : List SpeedRow := [⟨"msk", "Moscow", "1", "A", some 1⟩]

/-- Concrete fixture: the view of `tinyRows` with no active warehouse
(the spec's cold-start case). -/
def tinyView : View := build_views tinyRows [] []

/-! ### Association-list lemmas -/

theorem lookupA_append (m m' : List (String × α)) (k : String) :
    lookupA (m ++ m') k =
      match lookupA m k with
      | some v => some v
      | none => lookupA m' k := by
  induction m with
  | nil => simp [lookupA]
  | cons p m ih => by_cases h : p.1 = k <;> simp [lookupA, h, ih]

theorem lookupA_setA (m : List (String × α)) (k : String) (v : α) (x : String) :
    lookupA (setA m k v) x = if k = x then some v else lookupA m x := by
  induction m with
  | nil => simp [setA, lookupA]
  | cons p m ih =>
      by_cases hk : p.1 = k
      · by_cases hx : k = x <;> simp [setA, lookupA, hk, hx]
      · by_cases hx : p.1 = x
        · have h1 : ¬ k = x := fun h => hk (hx.trans h.symm)
          have h2 : ¬ x = k := fun h => h1 h.symm
          simp [setA, lookupA, hk, hx, h1, h2]
        · simp [setA, lookupA, hk, hx, ih]

theorem lookupD_setA (m : List (String × α)) (k : String) (v : α) (x : String) (d : α) :
    lookupD (setA m k v) x d = if k = x then v else lookupD m x d := by
  by_cases h : k = x <;> simp [lookupD, lookupA_setA, h]

theorem mem_setA {p : String × α} {m : List (String × α)} {k : String} {v : α}
    (h : p ∈ setA m k v) : p = (k, v) ∨ p ∈ m := by
  induction m with
  | nil => simpa [setA] using h
  | cons q m ih =>
      by_cases hk : q.1 = k
      · rcases (by simpa [setA, hk] using h) with h' | h'
        · exact Or.inl h'
        · exact Or.inr (List.mem_cons_of_mem _ h')
      · rcases (by simpa [setA, hk] using h) with h' | h'
        · exact Or.inr (by simp [h'])
        · rcases ih h' with h'' | h''
          · exact Or.inl h''
          · exact Or.inr (List.mem_cons_of_mem _ h'')

theorem lookupA_mem {m : List (String × α)} {k : String} {v : α}
    (h : lookupA m k = some v) : (k, v) ∈ m := by
  induction m with
  | nil => simp [lookupA] at h
  | cons p m ih =>
      by_cases hk : p.1 = k
      · have h2 : p.2 = v := by simpa [lookupA, hk] using h
        have hp : p = (k, v) := by
          cases p
          simp_all
        rw [← hp]
        exact List.mem_cons_self _ _
      · exact List.mem_cons_of_mem _ (ih (by simpa [lookupA, hk] using h))

theorem dgetD_fst (m : List (String × α)) (k : String) (d : α) :
    (dgetD m k d).1 = lookupD m k d := by
  cases h : lookupA m k <;> simp [dgetD, lookupD, h]

theorem lookupD_dgetD (m : List (String × α)) (k : String) (d : α) (x : String) :
    lookupD (dgetD m k d).2 x d = lookupD m x d := by
  cases h : lookupA m k with
  | some v => simp [dgetD, h]
  | none =>
      simp only [dgetD, h]
      cases h' : lookupA m x with
      | some w => simp [lookupD, lookupA_append, h']
      | none =>
          by_cases hx : k = x <;>
            simp [lookupD, lookupA_append, h', lookupA, hx]

theorem mem_dgetD_snd {p : String × α} {m : List (String × α)} {k : String} {d : α}
    (h : p ∈ (dgetD m k d).2) : p ∈ m ∨ p = (k, d) := by
  cases hk : lookupA m k with
  | some v => exact Or.inl (by simpa [dgetD, hk] using h)
  | none =>
      rcases (by simpa [dgetD, hk] using h : p ∈ m ∨ p = (k, d)) with h' | h'
      · exact Or.inl h'
      · exact Or.inr h'

/-! ### Time-order lemmas -/

theorem tle_refl (a : Time) : tle a a := by
  cases a <;> simp [tle]

theorem tle_trans {a b c : Time} (h₁ : tle a b) (h₂ : tle b c) : tle a c := by
  cases a <;> cases b <;> cases c <;> simp [tle] at * <;> exact le_trans h₁ h₂

theorem tle_of_tLT {a b : Time} (h : tLT a b = true) : tle a b := by
  cases a <;> cases b <;> simp [tLT, tle] at * <;> exact le_of_lt h

theorem tle_of_not_tLT {a b : Time} (h : tLT a b = false) : tle b a := by
  cases a <;> cases b <;> simp [tLT, tle] at * <;> exact h

theorem tLT_of_tLT_of_tle {t a b : Time} (h₁ : tLT t a = true) (h₂ : tle a b) :
    tLT t b = true := by
  cases t <;> cases a <;> cases b <;> simp [tLT, tle] at * <;> exact lt_of_lt_of_le h₁ h₂

theorem pyMin_cases (x y : Time) : pyMin x y = x ∨ pyMin x y = y := by
  unfold pyMin; split <;> simp

theorem tle_pyMin_left (x y : Time) : tle (pyMin x y) x := by
  unfold pyMin
  split
  · exact tle_of_tLT (by assumption)
  · exact tle_refl x

theorem tle_pyMin_right (x y : Time) : tle (pyMin x y) y := by
  unfold pyMin
  split
  · exact tle_refl y
  · exact tle_of_not_tLT (by simpa using (by assumption : ¬ tLT y x = true))

theorem pyMin_mono_left {a b : Time} (t : Time) (h : tle a b) :
    tle (pyMin a t) (pyMin b t) := by
  unfold pyMin
  by_cases ha : tLT t a = true
  · have hb : tLT t b = true := tLT_of_tLT_of_tle ha h
    simp [ha, hb, tle_refl]
  · have ha' : tLT t a = false := by simpa using ha
    by_cases hb : tLT t b = true
    · simp [ha', hb]
      exact tle_of_not_tLT ha'
    · have hb' : tLT t b = false := by simpa using hb
      simp [ha', hb']
      exact h

theorem tle_pyMin_of_le {c a b : Time} (h₁ : tle c a) (h₂ : tle c b) :
    tle c (pyMin a b) := by
  rcases pyMin_cases a b with h | h <;> rw [h] <;> assumption

theorem posTime_pyMin {a b : Time} (ha : posTime a) (hb : posTime b) :
    posTime (pyMin a b) := by
  rcases pyMin_cases a b with h | h <;> rw [h] <;> assumption

theorem speedOf_nonneg {t : Time} (h : posTime t) : 0 ≤ speedOf t := by
  cases t with
  | none => simp [speedOf]
  | some q =>
      have hq : 0 < q := by simpa [posTime] using h
      simp only [speedOf]
      exact div_nonneg zero_le_one hq.le

theorem speedOf_antitone {a b : Time} (ha : posTime a) (h : tle a b) :
    speedOf b ≤ speedOf a := by
  cases b with
  | none => simpa [speedOf] using speedOf_nonneg ha
  | some qb =>
      cases a with
      | none => simp [tle] at h
      | some qa =>
          simp only [speedOf]
          exact one_div_le_one_div_of_le (by simpa [posTime] using ha)
            (by simpa [tle] using h)

/-! ### Global-speed lemmas -/

theorem foldl_add_eq (f : α → ℚ) (l : List α) (init : ℚ) :
    l.foldl (fun s a => s + f a) init = init + (l.map f).sum := by
  induction l generalizing init with
  | nil => simp
  | cons a l ih => simp [ih]; ring

theorem sumMap_le {l : List α} {f g : α → ℚ} (h : ∀ a ∈ l, f a ≤ g a) :
    (l.map f).sum ≤ (l.map g).sum := by
  induction l with
  | nil => simp
  | cons a l ih =>
      simp only [List.map_cons, List.sum_cons]
      exact add_le_add (h a (by simp)) (ih fun a ha => h a (by simp [ha]))

theorem sumMap_nonneg {l : List α} {f : α → ℚ} (h : ∀ a ∈ l, 0 ≤ f a) :
    0 ≤ (l.map f).sum := by
  have := sumMap_le (l := l) (f := fun _ => (0 : ℚ)) (g := f) (by simpa using h)
  simpa using this

theorem computeGlobalSpeed_eq_sum (T : List (String × Time)) (W : List (String × ℚ)) :
    computeGlobalSpeed T W
      = (W.map (fun p => p.2 * speedOf (lookupD T p.1 none))).sum := by
  simpa [computeGlobalSpeed] using
    foldl_add_eq (fun p : String × ℚ => p.2 * speedOf (lookupD T p.1 none)) W 0

theorem computeGlobalSpeed_nonneg {T : List (String × Time)} {W : List (String × ℚ)}
    (hW : ∀ p ∈ W, 0 ≤ p.2) (hT : ∀ p ∈ W, posTime (lookupD T p.1 none)) :
    0 ≤ computeGlobalSpeed T W := by
  rw [computeGlobalSpeed_eq_sum]
  exact sumMap_nonneg fun p hp => mul_nonneg (hW p hp) (speedOf_nonneg (hT p hp))

theorem computeGlobalSpeed_mono {T₁ T₂ : List (String × Time)} {W : List (String × ℚ)}
    (hW : ∀ p ∈ W, 0 ≤ p.2)
    (h : ∀ p ∈ W, tle (lookupD T₁ p.1 none) (lookupD T₂ p.1 none))
    (hpos : ∀ p ∈ W, posTime (lookupD T₁ p.1 none)) :
    computeGlobalSpeed T₂ W ≤ computeGlobalSpeed T₁ W := by
  rw [computeGlobalSpeed_eq_sum, computeGlobalSpeed_eq_sum]
  exact sumMap_le fun p hp =>
    mul_le_mul_of_nonneg_left (speedOf_antitone (hpos p hp) (h p hp)) (hW p hp)

/-! ### Build-loop invariants -/

/-- A single defaultdict min-update (`cur = m[r]; if t < cur: m[r] = t`)
seen through `lookupD`. -/
theorem lookupD_minUpdate (m : List (String × Time)) (r : String) (t : Time) (x : String) :
    lookupD (if tLT t (dgetD m r none).1 then setA (dgetD m r none).2 r t
      else (dgetD m r none).2) x none
      = if r = x then pyMin (lookupD m r none) t else lookupD m x none := by
  rw [dgetD_fst]
  by_cases ht : tLT t (lookupD m r none) = true
  · rw [if_pos ht, lookupD_setA]
    by_cases hx : r = x
    · subst hx
      simp [pyMin, ht]
    · simp [hx, lookupD_dgetD]
  · have ht' : tLT t (lookupD m r none) = false := by simpa using ht
    rw [ht']
    simp only [Bool.false_eq_true, if_false, lookupD_dgetD]
    by_cases hx : r = x
    · subst hx
      simp [pyMin, ht']
    · simp [hx]

theorem mem_minUpdate {p : String × Time} {m : List (String × Time)} {r : String} {t : Time}
    (h : p ∈ (if tLT t (dgetD m r none).1 then setA (dgetD m r none).2 r t
      else (dgetD m r none).2)) :
    p ∈ m ∨ p.1 = r := by
  by_cases ht : tLT t (dgetD m r none).1 = true
  · rw [if_pos ht] at h
    rcases mem_setA h with h' | h'
    · exact Or.inr (by simp [h'])
    · rcases mem_dgetD_snd h' with h'' | h''
      · exact Or.inl h''
      · exact Or.inr (by simp [h''])
  · simp only [ht, if_false, Bool.false_eq_true] at h
    rcases mem_dgetD_snd h with h' | h'
    · exact Or.inl h'
    · exact Or.inr (by simp [h'])

theorem buildStep_best_all (active : List String) (st : BState) (row : SpeedRow)
    (x : String) :
    lookupD (buildStep active st row).best_all x none
      = if row.region_code = x
        then pyMin (lookupD st.best_all row.region_code none) row.time_hours
        else lookupD st.best_all x none := by
  simpa [buildStep] using
    lookupD_minUpdate st.best_all row.region_code row.time_hours x

theorem buildStep_best_active (active : List String) (st : BState) (row : SpeedRow)
    (x : String) :
    lookupD (buildStep active st row).best_active x none
      = if row.warehouse_id ∈ active ∧ row.region_code = x
        then pyMin (lookupD st.best_active row.region_code none) row.time_hours
        else lookupD st.best_active x none := by
  by_cases hw : row.warehouse_id ∈ active
  · simpa [buildStep, hw] using
      lookupD_minUpdate st.best_active row.region_code row.time_hours x
  · simp [buildStep, hw]

theorem buildStep_best_by_wh_mem {active : List String} {st : BState} {row : SpeedRow}
    {p : String × List (String × Time)}
    (h : p ∈ (buildStep active st row).best_by_wh) :
    p ∈ st.best_by_wh ∨ p = (row.warehouse_id, []) ∨
      (p.1 = row.warehouse_id ∧ ∀ x, lookupD p.2 x none
        = if row.region_code = x
          then pyMin (lookupD (lookupD st.best_by_wh row.warehouse_id []) row.region_code none)
            row.time_hours
          else lookupD (lookupD st.best_by_wh row.warehouse_id []) x none) := by
  have h' : p ∈ setA (dgetD st.best_by_wh row.warehouse_id []).2 row.warehouse_id
      (let pInner := dgetD (dgetD st.best_by_wh row.warehouse_id []).1 row.region_code none
        if tLT row.time_hours pInner.1 then setA pInner.2 row.region_code row.time_hours
        else pInner.2) := by
    simpa [buildStep] using h
  rcases mem_setA h' with h'' | h''
  · refine Or.inr (Or.inr ⟨by simp [h''], fun x => ?_⟩)
    have hfst : (dgetD st.best_by_wh row.warehouse_id []).1
        = lookupD st.best_by_wh row.warehouse_id [] := dgetD_fst _ _ _
    have := lookupD_minUpdate (lookupD st.best_by_wh row.warehouse_id [])
      row.region_code row.time_hours x
    rw [h'']
    simpa [hfst] using this
  · rcases mem_dgetD_snd h'' with h₃ | h₃
    · exact Or.inl h₃
    · exact Or.inr (Or.inl h₃)

/-- `best_all` never increases across a build step. -/
theorem buildStep_best_all_le (active : List String) (st : BState) (row : SpeedRow)
    (x : String) :
    tle (lookupD (buildStep active st row).best_all x none) (lookupD st.best_all x none) := by
  rw [buildStep_best_all]
  by_cases hx : row.region_code = x
  · subst hx
    simp only [if_pos rfl]
    exact tle_pyMin_left _ _
  · simp only [hx, if_false]
    exact tle_refl _

theorem stTle_wh_lookup {st : BState} (h : StTle st) (w : String) (x : String) :
    tle (lookupD st.best_all x none) (lookupD (lookupD st.best_by_wh w []) x none) := by
  cases hw : lookupA st.best_by_wh w with
  | some m =>
      have := h.2 (w, m) (lookupA_mem hw) x
      simpa [lookupD, hw] using this
  | none =>
      simp [lookupD, hw, lookupA, tle]

theorem stPos_wh_lookup {st : BState} (h : StPos st) (w : String) (x : String) :
    posTime (lookupD (lookupD st.best_by_wh w []) x none) := by
  cases hw : lookupA st.best_by_wh w with
  | some m =>
      have := h.2.2 (w, m) (lookupA_mem hw) x
      simpa [lookupD, hw] using this
  | none =>
      simp [lookupD, hw, lookupA, posTime]

theorem stTle_step (active : List String) (st : BState) (row : SpeedRow)
    (h : StTle st) : StTle (buildStep active st row) := by
  constructor
  · intro x
    rw [buildStep_best_all, buildStep_best_active]
    by_cases hx : row.region_code = x
    · subst hx
      by_cases hw : row.warehouse_id ∈ active
      · simp only [if_pos rfl, hw, true_and]
        exact pyMin_mono_left _ (h.1 _)
      · simp only [if_pos rfl, hw, false_and, if_false]
        exact tle_trans (tle_pyMin_left _ _) (h.1 _)
    · simp only [hx, if_false, and_false]
      exact h.1 x
  · intro p hp x
    rcases buildStep_best_by_wh_mem hp with hmem | hmem | hmem
    · exact tle_trans (buildStep_best_all_le active st row x) (h.2 p hmem x)
    · rw [hmem]
      simp [lookupD, lookupA, tle]
    · rw [hmem.2 x, buildStep_best_all]
      by_cases hx : row.region_code = x
      · subst hx
        simp only [if_pos rfl]
        exact pyMin_mono_left _ (stTle_wh_lookup h _ _)
      · simp only [hx, if_false]
        exact stTle_wh_lookup h _ _

theorem stPos_step (active : List String) (st : BState) (row : SpeedRow)
    (hrow : posTime row.time_hours) (h : StPos st) : StPos (buildStep active st row) := by
  refine ⟨fun x => ?_, fun x => ?_, fun p hp x => ?_⟩
  · rw [buildStep_best_all]
    by_cases hx : row.region_code = x
    · subst hx
      simp only [if_pos rfl]
      exact posTime_pyMin (h.1 _) hrow
    · simp only [hx, if_false]
      exact h.1 x
  · rw [buildStep_best_active]
    by_cases hx : row.warehouse_id ∈ active ∧ row.region_code = x
    · simp only [if_pos hx]
      exact posTime_pyMin (h.2.1 _) hrow
    · simp only [hx, if_false]
      exact h.2.1 x
  · rcases buildStep_best_by_wh_mem hp with hmem | hmem | hmem
    · exact h.2.2 p hmem x
    · rw [hmem]
      simp [lookupD, lookupA, posTime]
    · rw [hmem.2 x]
      by_cases hx : row.region_code = x
      · subst hx
        simp only [if_pos rfl]
        exact posTime_pyMin (stPos_wh_lookup h _ _) hrow
      · simp only [hx, if_false]
        exact stPos_wh_lookup h _ _

theorem stTle_buildState (rows : List SpeedRow) (active : List String) :
    StTle (buildState rows active) := by
  have hinit : StTle ⟨[], [], [], [], []⟩ := by
    constructor
    · intro x
      simp [lookupD, lookupA, tle]
    · intro p hp x
      simp at hp
  have : ∀ st : BState, StTle st → StTle (rows.foldl (buildStep active) st) := by
    induction rows with
    | nil => intro st h; exact h
    | cons row rest ih =>
        intro st h
        exact ih _ (stTle_step active st row h)
  exact this _ hinit

theorem stPos_buildState {rows : List SpeedRow} (active : List String)
    (hrows : ∀ row ∈ rows, posTime row.time_hours) :
    StPos (buildState rows active) := by
  have hinit : StPos ⟨[], [], [], [], []⟩ := by
    refine ⟨fun x => ?_, fun x => ?_, fun p hp x => ?_⟩
    · simp [lookupD, lookupA, posTime]
    · simp [lookupD, lookupA, posTime]
    · simp at hp
  have main : ∀ (rows' : List SpeedRow) (st : BState),
      (∀ row ∈ rows', posTime row.time_hours) → StPos st →
        StPos (rows'.foldl (buildStep active) st) := by
    intro rows'
    induction rows' with
    | nil => intro st _ h; exact h
    | cons row rest ih =>
        intro st hr h
        exact ih _ (fun r hmem => hr r (by simp [hmem]))
          (stPos_step active st row (hr row (by simp)) h)
  exact main rows _ hrows hinit

/-! ### Weight lemmas -/

theorem lookupD_nonneg {m : List (String × ℚ)} (h : ∀ p ∈ m, 0 ≤ p.2) (r : String) :
    0 ≤ lookupD m r 0 := by
  cases hr : lookupA m r with
  | some v =>
      have := h (r, v) (lookupA_mem hr)
      simpa [lookupD, hr] using this
  | none => simp [lookupD, hr]

theorem lookupA_cons (p : String × α) (m : List (String × α)) (k : String) :
    lookupA (p :: m) k = if p.1 = k then some p.2 else lookupA m k := rfl

theorem lookupD_cons (p : String × α) (m : List (String × α)) (k : String) (d : α) :
    lookupD (p :: m) k d = if p.1 = k then p.2 else lookupD m k d := by
  by_cases h : p.1 = k <;> simp [lookupD, lookupA_cons, h]

theorem lookupA_mapKeys (f : String → ℚ) {regions : List String} {r : String}
    (h : r ∈ regions) :
    lookupA (regions.map fun r' => (r', f r')) r = some (f r) := by
  induction regions with
  | nil => simp at h
  | cons a rest ih =>
      rcases List.mem_cons.mp h with h' | h'
      · subst h'
        simp [lookupA_cons]
      · by_cases ha : a = r
        · subst ha
          simp [lookupA_cons]
        · simpa [lookupA_cons, ha] using ih h'

theorem pyWeights_key_mem {regions : List String} {sales : List (String × ℚ)}
    {p : String × ℚ} (h : p ∈ pyWeights regions sales) : p.1 ∈ regions := by
  unfold pyWeights at h
  split at h
  · split at h
    · rcases List.mem_map.mp h with ⟨r, hr, hrp⟩
      simpa [← hrp] using hr
    · rcases List.mem_map.mp h with ⟨r, hr, hrp⟩
      simpa [← hrp] using hr
  · rcases List.mem_map.mp h with ⟨r, hr, hrp⟩
    simpa [← hrp] using hr

theorem pyWeights_nonneg {regions : List String} {sales : List (String × ℚ)}
    (hs : ∀ p ∈ sales, 0 ≤ p.2) :
    ∀ p ∈ pyWeights regions sales, 0 ≤ p.2 := by
  intro p hp
  unfold pyWeights at hp
  split at hp
  · split at hp
    · rcases List.mem_map.mp hp with ⟨r, hr, hrp⟩
      have htot : (0 : ℚ) < (regions.map (fun r' => lookupD sales r' 0)).sum := by
        assumption
      have hterm : (0 : ℚ) ≤ lookupD sales r 0 /
          (regions.map (fun r' => lookupD sales r' 0)).sum :=
        div_nonneg (lookupD_nonneg hs r) htot.le
      simpa [← hrp] using hterm
    · rcases List.mem_map.mp hp with ⟨r, hr, hrp⟩
      have hterm : (0 : ℚ) ≤ 1 / (regions.length : ℚ) :=
        div_nonneg zero_le_one (by positivity)
      simpa [← hrp] using hterm
  · rcases List.mem_map.mp hp with ⟨r, hr, hrp⟩
    have hterm : (0 : ℚ) ≤ 1 / (regions.length : ℚ) :=
      div_nonneg zero_le_one (by positivity)
    simpa [← hrp] using hterm

theorem sum_filter_snd_le {l : List (String × ℚ)} (h : ∀ p ∈ l, 0 ≤ p.2)
    (q : String × ℚ → Bool) :
    ((l.filter q).map Prod.snd).sum ≤ (l.map Prod.snd).sum := by
  induction l with
  | nil => simp
  | cons p l ih =>
      have hl : ∀ p' ∈ l, 0 ≤ p'.2 := fun p' hp' => h p' (by simp [hp'])
      by_cases hq : q p = true
      · simpa [List.filter_cons, hq] using add_le_add_left (ih hl) p.2
      · have hle : ((l.filter q).map Prod.snd).sum ≤ p.2 + (l.map Prod.snd).sum :=
          le_add_of_nonneg_of_le (h p (by simp)) (ih hl)
        simpa [List.filter_cons, hq] using hle

theorem lookupD_filter_ne {sales : List (String × ℚ)} {r x : String} (hx : x ≠ r) :
    lookupD (sales.filter fun p => !(p.1 = r : Bool)) x 0 = lookupD sales x 0 := by
  induction sales with
  | nil => simp
  | cons p sales ih =>
      by_cases hpr : p.1 = r
      · have hpx : ¬ p.1 = x := fun h => hx (h ▸ hpr)
        have hfe : (p :: sales).filter (fun p' => !(p'.1 = r : Bool))
            = sales.filter (fun p' => !(p'.1 = r : Bool)) := by
          simp [List.filter_cons, hpr]
        rw [hfe, ih, lookupD_cons, if_neg hpx]
      · have hfe : (p :: sales).filter (fun p' => !(p'.1 = r : Bool))
            = p :: sales.filter (fun p' => !(p'.1 = r : Bool)) := by
          simp [List.filter_cons, hpr]
        rw [hfe, lookupD_cons, lookupD_cons, ih]

theorem lookupD_add_filter_le {sales : List (String × ℚ)} (hs : ∀ p ∈ sales, 0 ≤ p.2)
    (r : String) :
    lookupD sales r 0 + ((sales.filter fun p => !(p.1 = r : Bool)).map Prod.snd).sum
      ≤ (sales.map Prod.snd).sum := by
  induction sales with
  | nil => simp [lookupD, lookupA]
  | cons p sales ih =>
      have hl : ∀ p' ∈ sales, 0 ≤ p'.2 := fun p' hp' => hs p' (by simp [hp'])
      by_cases hpr : p.1 = r
      · have hfle : ((sales.filter fun p' => !(p'.1 = r : Bool)).map Prod.snd).sum
            ≤ (sales.map Prod.snd).sum :=
          sum_filter_snd_le hl _
        have hfe : (p :: sales).filter (fun p' => !(p'.1 = r : Bool))
            = sales.filter (fun p' => !(p'.1 = r : Bool)) := by
          simp [List.filter_cons, hpr]
        rw [hfe, lookupD_cons, if_pos hpr]
        simpa using add_le_add_left hfle p.2
      · have hfe : (p :: sales).filter (fun p' => !(p'.1 = r : Bool))
            = p :: sales.filter (fun p' => !(p'.1 = r : Bool)) := by
          simp [List.filter_cons, hpr]
        rw [hfe, lookupD_cons, if_neg hpr]
        have hih := ih hl
        simp only [List.map_cons, List.sum_cons]
        calc lookupD sales r 0 +
            (p.2 + ((sales.filter fun p' => !(p'.1 = r : Bool)).map Prod.snd).sum)
            = p.2 + (lookupD sales r 0 +
              ((sales.filter fun p' => !(p'.1 = r : Bool)).map Prod.snd).sum) := by ring
          _ ≤ p.2 + (sales.map Prod.snd).sum := add_le_add_left hih p.2

theorem sum_lookups_le_sum_sales {regions : List String} {sales : List (String × ℚ)}
    (hnd : regions.Nodup) (hs : ∀ p ∈ sales, 0 ≤ p.2) :
    (regions.map fun r => lookupD sales r 0).sum ≤ (sales.map Prod.snd).sum := by
  induction regions generalizing sales with
  | nil =>
      simpa using sumMap_nonneg (l := sales) (f := Prod.snd) hs
  | cons r rest ih =>
      have hr : r ∉ rest := (List.nodup_cons.mp hnd).1
      have hnd' : rest.Nodup := (List.nodup_cons.mp hnd).2
      have hmapeq : (rest.map fun x => lookupD sales x 0)
          = rest.map fun x => lookupD (sales.filter fun p => !(p.1 = r : Bool)) x 0 := by
        refine List.map_congr_left fun x hx => ?_
        have hxr : x ≠ r := fun h => hr (by rwa [h] at hx)
        exact (lookupD_filter_ne hxr).symm
      have hfs : ∀ p ∈ (sales.filter fun p => !(p.1 = r : Bool)), 0 ≤ p.2 :=
        fun p hp => hs p (List.mem_of_mem_filter hp)
      have hrest := ih hnd' hfs
      calc ((r :: rest).map fun x => lookupD sales x 0).sum
          = lookupD sales r 0 + (rest.map fun x => lookupD sales x 0).sum := by simp
        _ = lookupD sales r 0 +
            (rest.map fun x => lookupD (sales.filter fun p => !(p.1 = r : Bool)) x 0).sum := by
              rw [hmapeq]
        _ ≤ lookupD sales r 0 +
            ((sales.filter fun p => !(p.1 = r : Bool)).map Prod.snd).sum :=
              add_le_add_left hrest _
        _ ≤ (sales.map Prod.snd).sum := lookupD_add_filter_le hs r

/-! ### Recommender-loop lemmas -/

theorem newBestFold_snd_lookup (byr : List (String × Time)) (rn : List (String × String))
    (acc : List (String × Time) × List (String × Time)) (x : String) :
    lookupD (newBestFold byr rn acc).2 x none = lookupD acc.2 x none := by
  induction rn generalizing acc with
  | nil => rfl
  | cons q rest ih =>
      simp only [newBestFold]
      rw [ih]
      exact lookupD_dgetD acc.2 q.1 none x

theorem newBestFold_snd_keys {byr : List (String × Time)} {rn : List (String × String)}
    {acc : List (String × Time) × List (String × Time)} {p : String × Time}
    (h : p ∈ (newBestFold byr rn acc).2) :
    p ∈ acc.2 ∨ p.1 ∈ keysOf rn := by
  induction rn generalizing acc with
  | nil => exact Or.inl h
  | cons q rest ih =>
      simp only [newBestFold] at h
      rcases ih h with h' | h'
      · rcases mem_dgetD_snd h' with h'' | h''
        · exact Or.inl h''
        · exact Or.inr (by simp [keysOf, h''])
      · exact Or.inr (by simp [keysOf] at h' ⊢; exact Or.inr h')

theorem newBestFold_fst_lookup (byr : List (String × Time)) (rn : List (String × String))
    (acc : List (String × Time) × List (String × Time)) (x : String) :
    lookupD (newBestFold byr rn acc).1 x none
      = if x ∈ keysOf rn
        then pyMin (lookupD acc.2 x none) (lookupD byr x none)
        else lookupD acc.1 x none := by
  induction rn generalizing acc with
  | nil => simp [newBestFold, keysOf]
  | cons q rest ih =>
      simp only [newBestFold]
      rw [ih]
      by_cases hrest : x ∈ keysOf rest
      · have hx : x ∈ keysOf (q :: rest) := by simp [keysOf] at hrest ⊢; exact Or.inr hrest
        rw [if_pos hrest, if_pos hx, lookupD_dgetD]
      · by_cases hq : q.1 = x
        · have hx : x ∈ keysOf (q :: rest) := by simp [keysOf, hq]
          rw [if_neg hrest, if_pos hx, lookupD_setA, if_pos hq, dgetD_fst]
          rw [hq]
        · have hx : x ∉ keysOf (q :: rest) := by
            simp [keysOf] at hrest ⊢
            exact ⟨fun h => hq h.symm, hrest⟩
          rw [if_neg hrest, if_neg hx, lookupD_setA, if_neg hq]

theorem changesFold_snd_lookup (w : List (String × ℚ)) (nb : List (String × Time))
    (rn : List (String × String)) (acc : List RegionView × List (String × Time))
    (x : String) :
    lookupD (changesFold w nb rn acc).2 x none = lookupD acc.2 x none := by
  induction rn generalizing acc with
  | nil => rfl
  | cons q rest ih =>
      simp only [changesFold]
      split
      · rw [ih]
        exact lookupD_dgetD acc.2 q.1 none x
      · rw [ih]
        exact lookupD_dgetD acc.2 q.1 none x

theorem changesFold_snd_keys {w : List (String × ℚ)} {nb : List (String × Time)}
    {rn : List (String × String)} {acc : List RegionView × List (String × Time)}
    {p : String × Time}
    (h : p ∈ (changesFold w nb rn acc).2) :
    p ∈ acc.2 ∨ p.1 ∈ keysOf rn := by
  induction rn generalizing acc with
  | nil => exact Or.inl h
  | cons q rest ih =>
      simp only [changesFold] at h
      have hsplit : p ∈ (dgetD acc.2 q.1 none).2 ∨ p.1 ∈ keysOf rest := by
        split at h
        · exact ih h
        · exact ih h
      rcases hsplit with h' | h'
      · rcases mem_dgetD_snd h' with h'' | h''
        · exact Or.inl h''
        · exact Or.inr (by simp [keysOf, h''])
      · exact Or.inr (by simp [keysOf] at h' ⊢; exact Or.inr h')

theorem mkRec_snd_eq (view : View) (ba : List (String × Time)) (w_id : String)
    (by_region : List (String × Time)) :
    (mkRec view ba w_id by_region).2
      = (changesFold view.weights (mkRecNewBest view ba by_region) view.region_name
          ([], (newBestFold by_region view.region_name ([], ba)).2)).2 := rfl

theorem mkRec_snd_lookup (view : View) (ba : List (String × Time)) (w_id : String)
    (by_region : List (String × Time)) (x : String) :
    lookupD (mkRec view ba w_id by_region).2 x none = lookupD ba x none := by
  rw [mkRec_snd_eq, changesFold_snd_lookup]
  exact newBestFold_snd_lookup by_region view.region_name ([], ba) x

theorem mkRec_snd_keys {view : View} {ba : List (String × Time)} {w_id : String}
    {by_region : List (String × Time)} {p : String × Time}
    (h : p ∈ (mkRec view ba w_id by_region).2) :
    p ∈ ba ∨ p.1 ∈ keysOf view.region_name := by
  rw [mkRec_snd_eq] at h
  rcases changesFold_snd_keys h with h' | h'
  · rcases newBestFold_snd_keys h' with h'' | h''
    · exact Or.inl h''
    · exact Or.inr h''
  · exact Or.inr h'

theorem mkRec_marginal_abs (view : View) (ba : List (String × Time)) (w_id : String)
    (by_region : List (String × Time)) :
    (mkRec view ba w_id by_region).1.marginal_abs
      = computeGlobalSpeed (mkRecNewBest view ba by_region) view.weights
        - view.global_current := rfl

theorem mkRec_marginal_pct (view : View) (ba : List (String × Time)) (w_id : String)
    (by_region : List (String × Time)) :
    (mkRec view ba w_id by_region).1.marginal_pct
      = if view.global_current = 0 then none
        else some ((mkRec view ba w_id by_region).1.marginal_abs
          / view.global_current * 100) := rfl

theorem mkRec_coverage_pct (view : View) (ba : List (String × Time)) (w_id : String)
    (by_region : List (String × Time)) :
    (mkRec view ba w_id by_region).1.coverage_pct
      = if view.global_opt = 0 then 0
        else computeGlobalSpeed (mkRecNewBest view ba by_region) view.weights
          / view.global_opt * 100 := rfl

theorem candList_snd_lookup (view : View) (a : List String)
    (l : List (String × List (String × Time)))
    (acc : List Recommendation × List (String × Time)) (x : String) :
    lookupD (candList view a l acc).2 x none = lookupD acc.2 x none := by
  induction l generalizing acc with
  | nil => rfl
  | cons p rest ih =>
      simp only [candList]
      split
      · exact ih acc
      · rw [ih]
        exact mkRec_snd_lookup view acc.2 p.1 p.2 x

theorem candList_snd_keys {view : View} {a : List String}
    {l : List (String × List (String × Time))}
    {acc : List Recommendation × List (String × Time)} {p : String × Time}
    (h : p ∈ (candList view a l acc).2) :
    p ∈ acc.2 ∨ p.1 ∈ keysOf view.region_name := by
  induction l generalizing acc with
  | nil => exact Or.inl h
  | cons q rest ih =>
      simp only [candList] at h
      by_cases hq : q.1 ∈ a
      · rw [if_pos hq] at h
        exact ih h
      · rw [if_neg hq] at h
        rcases ih h with h' | h'
        · have h₀ : p ∈ (mkRec view acc.2 q.1 q.2).2 := h'
          rcases mkRec_snd_keys h₀ with h'' | h''
          · exact Or.inl h''
          · exact Or.inr h''
        · exact Or.inr h'

theorem candList_mem {view : View} {a : List String}
    {l : List (String × List (String × Time))}
    {acc : List Recommendation × List (String × Time)} {rec : Recommendation}
    (h : rec ∈ (candList view a l acc).1) :
    rec ∈ acc.1 ∨ ∃ w byr ba',
      (w, byr) ∈ l ∧ w ∉ a ∧ rec = (mkRec view ba' w byr).1 ∧
        (∀ x, lookupD ba' x none = lookupD acc.2 x none) := by
  induction l generalizing acc with
  | nil => exact Or.inl h
  | cons q rest ih =>
      simp only [candList] at h
      by_cases hq : q.1 ∈ a
      · rw [if_pos hq] at h
        rcases ih h with h' | h'
        · exact Or.inl h'
        · rcases h' with ⟨w, byr, ba', hmem, hw, heq, hba⟩
          exact Or.inr ⟨w, byr, ba', List.mem_cons_of_mem _ hmem, hw, heq, hba⟩
      · rw [if_neg hq] at h
        rcases ih h with h' | h'
        · rcases List.mem_append.mp h' with h'' | h''
          · exact Or.inl h''
          · have hrec : rec = (mkRec view acc.2 q.1 q.2).1 := by simpa using h''
            refine Or.inr ⟨q.1, q.2, acc.2, ?_, hq, hrec, fun x => rfl⟩
            simp
        · rcases h' with ⟨w, byr, ba', hmem, hw, heq, hba⟩
          refine Or.inr ⟨w, byr, ba', List.mem_cons_of_mem _ hmem, hw, heq, fun x => ?_⟩
          rw [hba x]
          exact mkRec_snd_lookup view acc.2 q.1 q.2 x

theorem candList_inactive_nil {view : View} {a : List String}
    {l : List (String × List (String × Time))}
    (h : ∀ p ∈ l, p.1 ∈ a) :
    ∀ acc, (candList view a l acc).1 = acc.1 := by
  induction l with
  | nil => intro acc; rfl
  | cons q rest ih =>
      intro acc
      have hq : q.1 ∈ a := h q (by simp)
      simp only [candList, if_pos hq]
      exact ih (fun p hp => h p (by simp [hp])) acc

/-! ### Stable descending sort lemmas -/

theorem insertDescBy_perm (key : α → ℚ) (a : α) (l : List α) :
    List.Perm (insertDescBy key a l) (a :: l) := by
  induction l with
  | nil => rfl
  | cons b l ih =>
      by_cases h : key b ≤ key a
      · simp [insertDescBy, h]
      · simp only [insertDescBy, if_neg h]
        exact List.Perm.trans (ih.cons b) (List.Perm.swap a b l)

theorem sortDescBy_perm (key : α → ℚ) (l : List α) :
    List.Perm (sortDescBy key l) l := by
  induction l with
  | nil => rfl
  | cons a l ih =>
      exact List.Perm.trans (insertDescBy_perm key a (sortDescBy key l)) (ih.cons a)

theorem mem_insertDescBy {key : α → ℚ} {a x : α} {l : List α}
    (h : x ∈ insertDescBy key a l) : x = a ∨ x ∈ l :=
  List.mem_cons.mp ((insertDescBy_perm key a l).mem_iff.mp h)

theorem pairwise_insertDescBy {key : α → ℚ} {a : α} {l : List α}
    (h : List.Pairwise (fun x y => key y ≤ key x) l) :
    List.Pairwise (fun x y => key y ≤ key x) (insertDescBy key a l) := by
  induction l with
  | nil => simp [insertDescBy]
  | cons b l ih =>
      by_cases hba : key b ≤ key a
      · simp only [insertDescBy, if_pos hba]
        refine List.Pairwise.cons (fun c hc => ?_) h
        rcases List.mem_cons.mp hc with hc | hc
        · exact hc ▸ hba
        · exact le_trans (List.rel_of_pairwise_cons h hc) hba
      · simp only [insertDescBy, if_neg hba]
        refine List.Pairwise.cons (fun c hc => ?_) (ih (List.Pairwise.of_cons h))
        rcases mem_insertDescBy hc with hc | hc
        · exact hc ▸ le_of_not_le hba
        · exact List.rel_of_pairwise_cons h hc

theorem sortDescBy_pairwise (key : α → ℚ) (l : List α) :
    List.Pairwise (fun x y => key y ≤ key x) (sortDescBy key l) := by
  induction l with
  | nil => simp [sortDescBy]
  | cons a l ih => exact pairwise_insertDescBy ih

theorem filter_insertDescBy (key : α → ℚ) (a : α) (l : List α) (q : ℚ) :
    (insertDescBy key a l).filter (fun x => decide (key x = q))
      = (a :: l).filter (fun x => decide (key x = q)) := by
  induction l with
  | nil => rfl
  | cons b l ih =>
      by_cases hba : key b ≤ key a
      · simp [insertDescBy, hba]
      · have hne : ¬ key b = q ∨ ¬ key a = q := by
          by_cases haq : key a = q
          · left
            intro hbq
            exact hba (le_of_eq (hbq.trans haq.symm))
          · right
            exact haq
        simp only [insertDescBy, if_neg hba]
        rcases hne with hbq | haq
        · simp [List.filter_cons, hbq, ih]
        · simp [List.filter_cons, haq, ih]

theorem filter_sortDescBy (key : α → ℚ) (l : List α) (q : ℚ) :
    (sortDescBy key l).filter (fun x => decide (key x = q))
      = l.filter (fun x => decide (key x = q)) := by
  induction l with
  | nil => rfl
  | cons a l ih =>
      simp only [sortDescBy]
      rw [filter_insertDescBy]
      simp only [List.filter_cons, ih]

theorem filter_eq_nil_of_forall {key : α → ℚ} {l : List α} {q : ℚ}
    (h : ∀ x ∈ l, ¬ key x = q) :
    l.filter (fun x => decide (key x = q)) = [] := by
  induction l with
  | nil => rfl
  | cons b t ih =>
      have hb : ¬ key b = q := h b (by simp)
      simp [List.filter_cons, hb, ih (fun x hx => h x (by simp [hx]))]

/-- A list that is non-increasing in a key is uniquely determined by its
key-filters: there is exactly one stable descending arrangement.  Hence
the conjunction "permutation of the candidates, non-increasing, filters
agree with the candidates'" pins down the fully sorted list, and its
`take top_n` is exactly the first `top_n` entries of the stable
descending sort (the `top_n` largest-key candidates). -/
theorem sorted_filter_unique {key : α → ℚ} :
    ∀ (l₁ l₂ : List α),
      List.Pairwise (fun x y => key y ≤ key x) l₁ →
      List.Pairwise (fun x y => key y ≤ key x) l₂ →
      (∀ q : ℚ, l₁.filter (fun x => decide (key x = q))
        = l₂.filter (fun x => decide (key x = q))) →
      l₁ = l₂ := by
  intro l₁
  induction l₁ with
  | nil =>
      intro l₂ _ _ h
      cases l₂ with
      | nil => rfl
      | cons b t₂ =>
          have hb := h (key b)
          simp [List.filter_cons] at hb
  | cons a t₁ ih =>
      intro l₂ h₁ h₂ h
      cases l₂ with
      | nil =>
          have ha := h (key a)
          simp [List.filter_cons] at ha
      | cons b t₂ =>
          have hat : ∀ x ∈ t₁, key x ≤ key a :=
            fun x hx => List.rel_of_pairwise_cons h₁ hx
          have hbt : ∀ x ∈ t₂, key x ≤ key b :=
            fun x hx => List.rel_of_pairwise_cons h₂ hx
          have hab : key a = key b := by
            rcases lt_trichotomy (key a) (key b) with hlt | heq | hgt
            · exfalso
              have hq := h (key b)
              have hfa : (a :: t₁).filter (fun x => decide (key x = key b)) = [] := by
                refine filter_eq_nil_of_forall fun x hx => ?_
                rcases List.mem_cons.mp hx with hx | hx
                · exact hx ▸ ne_of_lt hlt
                · exact ne_of_lt (lt_of_le_of_lt (hat x hx) hlt)
              rw [hfa] at hq
              simp [List.filter_cons] at hq
            · exact heq
            · exfalso
              have hq := h (key a)
              have hfb : (b :: t₂).filter (fun x => decide (key x = key a)) = [] := by
                refine filter_eq_nil_of_forall fun x hx => ?_
                rcases List.mem_cons.mp hx with hx | hx
                · exact hx ▸ ne_of_lt hgt
                · exact ne_of_lt (lt_of_le_of_lt (hbt x hx) hgt)
              rw [hfb] at hq
              simp [List.filter_cons] at hq
          have hqa := h (key a)
          have hda : (decide (key a = key a)) = true := by simp
          have hdb : (decide (key b = key a)) = true := by simp [hab]
          rw [List.filter_cons, List.filter_cons, hda, hdb] at hqa
          simp only [if_true] at hqa
          have hhead : a = b := (List.cons.injEq _ _ _ _ ▸ hqa).1
          have htail : t₁.filter (fun x => decide (key x = key a))
              = t₂.filter (fun x => decide (key x = key a)) :=
            (List.cons.injEq _ _ _ _ ▸ hqa).2
          have htfilters : ∀ q : ℚ, t₁.filter (fun x => decide (key x = q))
              = t₂.filter (fun x => decide (key x = q)) := by
            intro q
            by_cases hq : key a = q
            · rw [← hq]
              exact htail
            · have hthis := h q
              have hda' : (decide (key a = q)) = false := by simp [hq]
              have hdb' : (decide (key b = q)) = false := by
                have : ¬ key b = q := fun hbq => hq (hab.trans hbq)
                simp [this]
              rw [List.filter_cons, List.filter_cons, hda', hdb'] at hthis
              simpa using hthis
          rw [hhead, ih t₂ (List.Pairwise.of_cons h₁) (List.Pairwise.of_cons h₂) htfilters]

/-! ### View-level bridge lemmas -/

theorem build_views_eq (rows : List SpeedRow) (a : List String) (s : List SalesRow) :
    build_views rows a s =
      { region_name := (buildState rows a).region_name
        best_all := (buildState rows a).best_all
        best_active := (buildState rows a).best_active
        best_by_wh := (buildState rows a).best_by_wh
        weights := pyWeights (keysOf (buildState rows a).region_name) (salesDict s)
        global_current := computeGlobalSpeed (buildState rows a).best_active
          (pyWeights (keysOf (buildState rows a).region_name) (salesDict s))
        global_opt := computeGlobalSpeed (buildState rows a).best_all
          (pyWeights (keysOf (buildState rows a).region_name) (salesDict s))
        coverage := if computeGlobalSpeed (buildState rows a).best_all
            (pyWeights (keysOf (buildState rows a).region_name) (salesDict s)) = 0 then 0
          else computeGlobalSpeed (buildState rows a).best_active
              (pyWeights (keysOf (buildState rows a).region_name) (salesDict s))
            / computeGlobalSpeed (buildState rows a).best_all
              (pyWeights (keysOf (buildState rows a).region_name) (salesDict s)) * 100
        warehouse_names := (buildState rows a).wh_name
        avg_time_current := weightedAvgTime (buildState rows a).best_active
          (pyWeights (keysOf (buildState rows a).region_name) (salesDict s)) } := rfl

theorem recommend_next_fst (view : View) (a : List String) (n : ℕ) :
    (recommend_next view a n).1
      = (sortDescBy (fun r => r.marginal_abs) (candidates view a).1).take n := rfl

theorem recommend_next_snd (view : View) (a : List String) (n : ℕ) :
    (recommend_next view a n).2 = { view with best_active := (candidates view a).2 } := rfl

theorem salesDict_nonneg {s : List SalesRow} (hs : ∀ row ∈ s, 0 ≤ row.orders) :
    ∀ p ∈ salesDict s, 0 ≤ p.2 := by
  have main : ∀ (s' : List SalesRow) (acc : List (String × ℚ)),
      (∀ row ∈ s', 0 ≤ row.orders) → (∀ p ∈ acc, 0 ≤ p.2) →
      ∀ p ∈ s'.foldl (fun m row => setA m row.region_code row.orders) acc, 0 ≤ p.2 := by
    intro s'
    induction s' with
    | nil => intro acc _ hacc; exact hacc
    | cons row rest ih =>
        intro acc hrow hacc
        refine ih _ (fun r hr => hrow r (by simp [hr])) (fun p hp => ?_)
        rcases mem_setA hp with h' | h'
        · rw [h']
          exact hrow row (by simp)
        · exact hacc p h'
  exact main s [] hs (by simp)

theorem mem_recommend_next {view : View} {a : List String} {n : ℕ} {rec : Recommendation}
    (h : rec ∈ (recommend_next view a n).1) :
    ∃ w byr ba', (w, byr) ∈ view.best_by_wh ∧ w ∉ a ∧
      rec = (mkRec view ba' w byr).1 ∧
      (∀ x, lookupD ba' x none = lookupD view.best_active x none) := by
  rw [recommend_next_fst] at h
  have h₁ : rec ∈ sortDescBy (fun r => r.marginal_abs) (candidates view a).1 :=
    List.take_subset n _ h
  have h₂ : rec ∈ (candidates view a).1 :=
    (sortDescBy_perm (fun r => r.marginal_abs) _).mem_iff.mp h₁
  rcases candList_mem h₂ with h₃ | h₃
  · simp at h₃
  · exact h₃

/-- Quantitative facts shared by the marginal-gain and coverage claims:
for any recommendation of a view built from validated inputs there is a
simulated global speed `ng` squeezed between the current and the optimal
global speed. -/
theorem rec_gs_bounds {rows : List SpeedRow} {a₁ : List String} {s : List SalesRow}
    {a₂ : List String} {n : ℕ} {rec : Recommendation}
    (hrows : ∀ row ∈ rows, posTime row.time_hours)
    (hsales : ∀ row ∈ s, 0 ≤ row.orders)
    (h : rec ∈ (recommend_next (build_views rows a₁ s) a₂ n).1) :
    ∃ ng : ℚ,
      rec.marginal_abs = ng - (build_views rows a₁ s).global_current ∧
      rec.coverage_pct = (if (build_views rows a₁ s).global_opt = 0 then 0
        else ng / (build_views rows a₁ s).global_opt * 100) ∧
      rec.marginal_pct = (if (build_views rows a₁ s).global_current = 0 then none
        else some (rec.marginal_abs / (build_views rows a₁ s).global_current * 100)) ∧
      (build_views rows a₁ s).global_current ≤ ng ∧
      ng ≤ (build_views rows a₁ s).global_opt := by
  rcases mem_recommend_next h with ⟨w, byr, ba', hmem, hw, heq, hba⟩
  have hTle : StTle (buildState rows a₁) := stTle_buildState rows a₁
  have hPos : StPos (buildState rows a₁) := stPos_buildState a₁ hrows
  set st := buildState rows a₁ with hst
  set W := pyWeights (keysOf st.region_name) (salesDict s) with hWdef
  have hview_weights : (build_views rows a₁ s).weights = W := rfl
  have hview_rn : (build_views rows a₁ s).region_name = st.region_name := rfl
  have hview_ba : (build_views rows a₁ s).best_active = st.best_active := rfl
  have hview_gc : (build_views rows a₁ s).global_current
      = computeGlobalSpeed st.best_active W := rfl
  have hview_go : (build_views rows a₁ s).global_opt
      = computeGlobalSpeed st.best_all W := rfl
  have hWnn : ∀ p ∈ W, 0 ≤ p.2 := pyWeights_nonneg (salesDict_nonneg hsales)
  have hbyr : ∀ x, posTime (lookupD byr x none) := by
    intro x
    exact hPos.2.2 (w, byr) (by exact hmem) x
  have hbyr_tle : ∀ x, tle (lookupD st.best_all x none) (lookupD byr x none) := by
    intro x
    exact hTle.2 (w, byr) (by exact hmem) x
  set nb := mkRecNewBest (build_views rows a₁ s) ba' byr with hnb
  have hnbval : ∀ p ∈ W, lookupD nb p.1 none
      = pyMin (lookupD st.best_active p.1 none) (lookupD byr p.1 none) := by
    intro p hp
    have hkey : p.1 ∈ keysOf st.region_name := pyWeights_key_mem hp
    have := newBestFold_fst_lookup byr (build_views rows a₁ s).region_name ([], ba') p.1
    rw [hnb, mkRecNewBest, this]
    rw [hview_rn] at *
    rw [if_pos hkey, hba p.1, hview_ba]
  have h1 : ∀ p ∈ W, tle (lookupD nb p.1 none) (lookupD st.best_active p.1 none) := by
    intro p hp
    rw [hnbval p hp]
    exact tle_pyMin_left _ _
  have h2 : ∀ p ∈ W, posTime (lookupD nb p.1 none) := by
    intro p hp
    rw [hnbval p hp]
    exact posTime_pyMin (hPos.2.1 _) (hbyr _)
  have h3 : ∀ p ∈ W, tle (lookupD st.best_all p.1 none) (lookupD nb p.1 none) := by
    intro p hp
    rw [hnbval p hp]
    exact tle_pyMin_of_le (hTle.1 _) (hbyr_tle _)
  refine ⟨computeGlobalSpeed nb W, ?_, ?_, ?_, ?_, ?_⟩
  · rw [heq, mkRec_marginal_abs]
    rfl
  · rw [heq, mkRec_coverage_pct]
    rfl
  · rw [heq, mkRec_marginal_pct]
  · rw [hview_gc]
    exact computeGlobalSpeed_mono hWnn h1 h2
  · rw [hview_go]
    exact computeGlobalSpeed_mono hWnn h3 (fun p hp => hPos.1 _)

/-- Global-speed facts of the view itself. -/
theorem build_views_gs_facts {rows : List SpeedRow} {a : List String} {s : List SalesRow}
    (hrows : ∀ row ∈ rows, posTime row.time_hours)
    (hsales : ∀ row ∈ s, 0 ≤ row.orders) :
    0 ≤ (build_views rows a s).global_current ∧
      (build_views rows a s).global_current ≤ (build_views rows a s).global_opt ∧
      0 ≤ (build_views rows a s).global_opt := by
  have hTle : StTle (buildState rows a) := stTle_buildState rows a
  have hPos : StPos (buildState rows a) := stPos_buildState a hrows
  set st := buildState rows a with hst
  set W := pyWeights (keysOf st.region_name) (salesDict s) with hWdef
  have hWnn : ∀ p ∈ W, 0 ≤ p.2 := pyWeights_nonneg (salesDict_nonneg hsales)
  have hgc : (build_views rows a s).global_current
      = computeGlobalSpeed st.best_active W := rfl
  have hgo : (build_views rows a s).global_opt
      = computeGlobalSpeed st.best_all W := rfl
  refine ⟨?_, ?_, ?_⟩
  · rw [hgc]
    exact computeGlobalSpeed_nonneg hWnn (fun p hp => hPos.2.1 _)
  · rw [hgc, hgo]
    exact computeGlobalSpeed_mono hWnn (fun p hp => hTle.1 _) (fun p hp => hPos.1 _)
  · rw [hgo]
    exact computeGlobalSpeed_nonneg hWnn (fun p hp => hPos.1 _)

/-! ### Remaining small lemmas -/

theorem pyWeights_nil (sales : List (String × ℚ)) : pyWeights [] sales = [] := by
  unfold pyWeights
  split
  · split <;> simp
  · simp

theorem computeGlobalSpeed_nil (T : List (String × Time)) :
    computeGlobalSpeed T [] = 0 := rfl

theorem sum_map_filter_eq {l : List α} {f : α → ℚ} {P : α → Bool}
    (h : ∀ a ∈ l, P a = false → f a = 0) :
    ((l.filter P).map f).sum = (l.map f).sum := by
  induction l with
  | nil => rfl
  | cons a l ih =>
      have hl : ∀ a' ∈ l, P a' = false → f a' = 0 := fun a' ha' => h a' (by simp [ha'])
      by_cases ha : P a = true
      · simp [List.filter_cons, ha, ih hl]
      · have hz : f a = 0 := h a (by simp) (by simpa using ha)
        simp [List.filter_cons, ha, ih hl, hz]

/-! ### Claim theorems -/

/-- C1: for every time mapping `T` and weight mapping `W` the global speed
equals `Σ_r W[r] * (0 if T[r] is unreachable else 1/T[r])`; an unreachable
region contributes exactly zero (dropping all unreachable regions leaves
the value unchanged, so they are neither penalized nor excluded); and the
global speed stays the finite (`ℚ`-valued) sum even in a state where the
weighted average time is forced to the unreachable sentinel. -/
theorem claim_global_speed_formula (T : List (String × Time)) (W : List (String × ℚ)) :
    computeGlobalSpeed T W
      = (W.map (fun p => p.2 *
          (match lookupD T p.1 none with
           | none => 0
           | some t => 1 / t))).sum
    ∧ computeGlobalSpeed T W
      = computeGlobalSpeed T (W.filter (fun p => decide (lookupD T p.1 none ≠ none)))
    ∧ ((∃ p ∈ W, 0 < p.2 ∧ lookupD T p.1 none = none) →
        weightedAvgTime T W = EF.inf) := by
  refine ⟨computeGlobalSpeed_eq_sum T W, ?_, ?_⟩
  · rw [computeGlobalSpeed_eq_sum, computeGlobalSpeed_eq_sum]
    refine (sum_map_filter_eq fun p hp hfalse => ?_).symm
    have hnone : lookupD T p.1 none = none := by simpa using hfalse
    rw [hnone]
    simp [speedOf]
  · rintro ⟨p, hp, hpos, hnone⟩
    unfold weightedAvgTime
    rw [if_pos ⟨p, hp, hnone, hpos⟩]

/-- C1 witness: a concrete weight mapping with a positive-weight
unreachable region: the average is the sentinel while the formula equality
still holds. -/
theorem claim_global_speed_formula_witness :
    weightedAvgTime [("b", some 2)] [("a", (1 : ℚ))] = EF.inf ∧
    computeGlobalSpeed [("b", some 2)] [("a", (1 : ℚ))] = 0 :=
  ⟨(claim_global_speed_formula [("b", some 2)] [("a", (1 : ℚ))]).2.2
      ⟨("a", (1 : ℚ)), by simp, by norm_num, by simp [lookupD, lookupA]⟩,
    by simp [computeGlobalSpeed, lookupD, lookupA, speedOf]⟩

/-- C2 (code bug): at weights `{a: 0}` and an empty time mapping (region
`a` unreachable with weight exactly `0`) the `w > 0` guard of
`_weighted_avg_time` does not fire, and the sum computes `0.0 * inf = nan`:
the result is NaN, not the finite partial sum the spec promises. -/
theorem claim_weighted_avg_nan :
    weightedAvgTime ([] : List (String × Time)) [("a", (0 : ℚ))] = EF.nan ∧
    weightedAvgTime ([] : List (String × Time)) [("a", (0 : ℚ))] ≠ EF.fin 0 := by
  constructor
  · simp [weightedAvgTime, lookupD, lookupA, wmul, eadd]
  · simp [weightedAvgTime, lookupD, lookupA, wmul, eadd]

/-- C3 (counterexample): with observed region set `{a}` and sales `{b: 1}`
the claim's branch condition ("sales has at least one positive entry")
selects the sales-weighted branch, giving region `a` the weight
`0 / 0 = 0`, but the code falls back to the uniform branch and returns
weight `1`. -/
theorem claim_weights_counterexample :
    pyWeights ["a"] [("b", (1 : ℚ))] ≠ weightsSpecC3 ["a"] [("b", (1 : ℚ))] ∧
    pyWeights ["a"] [("b", (1 : ℚ))] = [("a", (1 : ℚ))] ∧
    weightsSpecC3 ["a"] [("b", (1 : ℚ))] = [("a", (0 : ℚ))] := by
  have h2 : pyWeights ["a"] [("b", (1 : ℚ))] = [("a", (1 : ℚ))] := by
    simp [pyWeights, lookupD, lookupA]
  have h3 : weightsSpecC3 ["a"] [("b", (1 : ℚ))] = [("a", (0 : ℚ))] := by
    simp [weightsSpecC3, lookupD, lookupA]
  refine ⟨?_, h2, h3⟩
  rw [h2, h3]
  simp

/-- C3 (amended): the hard two-way branch is on whether the sales total
over the observed regions is strictly positive (not on `sales` having a
positive entry anywhere): if it is, every observed region gets
`sales.get(r, 0)` divided by that total; otherwise every observed region
gets the uniform weight `1/|R|`. -/
theorem claim_weights_branch (regions : List String) (sales : List (String × ℚ))
    (hnd : regions.Nodup) (hs : ∀ p ∈ sales, 0 ≤ p.2) :
    (0 < (regions.map fun r => lookupD sales r 0).sum →
      ∀ r ∈ regions, lookupA (pyWeights regions sales) r
        = some (lookupD sales r 0 / (regions.map fun r' => lookupD sales r' 0).sum)) ∧
    ((regions.map fun r => lookupD sales r 0).sum ≤ 0 →
      ∀ r ∈ regions, lookupA (pyWeights regions sales) r
        = some (1 / (regions.length : ℚ))) := by
  constructor
  · intro hpos r hr
    have hall : 0 < (sales.map Prod.snd).sum :=
      lt_of_lt_of_le hpos (sum_lookups_le_sum_sales hnd hs)
    have hne : sales ≠ [] := by
      intro hnil
      rw [hnil] at hall
      simp at hall
    unfold pyWeights
    rw [if_pos ⟨hne, hall⟩, if_pos hpos]
    exact lookupA_mapKeys _ hr
  · intro hle r hr
    unfold pyWeights
    by_cases hc : sales ≠ [] ∧ 0 < (sales.map Prod.snd).sum
    · rw [if_pos hc, if_neg (not_lt.mpr hle)]
      exact lookupA_mapKeys _ hr
    · rw [if_neg hc]
      exact lookupA_mapKeys _ hr

/-- C3 witness: both branches of the amended statement at concrete
inputs. -/
theorem claim_weights_branch_witness :
    lookupA (pyWeights ["msk", "spb"] [("msk", (3 : ℚ))]) "spb"
      = some (lookupD [("msk", (3 : ℚ))] "spb" 0
          / ((["msk", "spb"] : List String).map
              fun r' => lookupD [("msk", (3 : ℚ))] r' 0).sum) ∧
    lookupA (pyWeights ["msk"] ([] : List (String × ℚ))) "msk"
      = some (1 / ((["msk"] : List String).length : ℚ)) :=
  ⟨(claim_weights_branch ["msk", "spb"] [("msk", (3 : ℚ))] (by decide) (by norm_num)).1
      (by simp [lookupD, lookupA]) "spb" (by simp),
    (claim_weights_branch ["msk"] ([] : List (String × ℚ)) (by decide) (by simp)).2
      (by simp [lookupD, lookupA]) "msk" (by simp)⟩

/-- C4: for a view built from validated observations (positive finite or
absent times, non-negative sales) every recommendation's marginal gain is
non-negative: the pointwise minimum with a candidate's times cannot
decrease the global speed. -/
theorem claim_marginal_abs_nonneg (rows : List SpeedRow) (a₁ a₂ : List String)
    (s : List SalesRow) (n : ℕ)
    (hrows : ∀ row ∈ rows, posTime row.time_hours)
    (hsales : ∀ row ∈ s, 0 ≤ row.orders) :
    ∀ rec ∈ (recommend_next (build_views rows a₁ s) a₂ n).1,
      0 ≤ rec.marginal_abs := by
  intro rec h
  rcases rec_gs_bounds hrows hsales h with ⟨ng, habs, _, _, hle, _⟩
  rw [habs]
  exact sub_nonneg.mpr hle

/-- C4 witness: the single-observation cold-start view; recommending
warehouse 1 has marginal gain 1. -/
theorem claim_marginal_abs_nonneg_witness :
    0 ≤ ((recommend_next tinyView [] 1).1.headD recDefault).marginal_abs :=
  claim_marginal_abs_nonneg tinyRows [] [] [] 1
    (by simp [tinyRows, posTime])
    (by simp) _
    (by simp [tinyView, tinyRows, build_views, buildState, buildStep, salesDict,
      keysOf, pyWeights, computeGlobalSpeed, lookupD, lookupA, speedOf, dgetD, setA,
      tLT, pyMin, recommend_next, candidates, candList, mkRec, newBestFold,
      changesFold, weightedAvgTime, wmul, eadd, sortDescBy, insertDescBy, recDefault])

/-- C5: `recommend_next` returns the candidate list sorted non-increasingly
by `marginal_abs`, stably (for every key value, the survivors appear in the
candidates' original iteration order, as a left factor of the candidates'
filter), truncated to the first `top_n`; and when every warehouse of
`best_by_wh` is active it returns the empty list.  The last two conjuncts
settle maximality: the output is `full.take n` for a permutation `full` of
the candidates that is non-increasing and whose key-filters equal the
candidates' key-filters, and any such `full` is unique — so the output is
exactly the first `top_n` entries of the stable descending sort. -/
theorem claim_recommend_sorted (view : View) (a : List String) (n : ℕ) :
    ((recommend_next view a n).1.length = min n (candidates view a).1.length) ∧
    List.Pairwise (fun x y => y.marginal_abs ≤ x.marginal_abs)
      (recommend_next view a n).1 ∧
    (∀ q : ℚ, ∃ l₂, (candidates view a).1.filter (fun r => decide (r.marginal_abs = q))
      = (recommend_next view a n).1.filter (fun r => decide (r.marginal_abs = q)) ++ l₂) ∧
    ((∀ p ∈ view.best_by_wh, p.1 ∈ a) → (recommend_next view a n).1 = []) ∧
    (∃ full : List Recommendation,
      List.Perm full (candidates view a).1 ∧
      List.Pairwise (fun x y => y.marginal_abs ≤ x.marginal_abs) full ∧
      (∀ q : ℚ, full.filter (fun r => decide (r.marginal_abs = q))
        = (candidates view a).1.filter (fun r => decide (r.marginal_abs = q))) ∧
      (recommend_next view a n).1 = full.take n) ∧
    (∀ l₁ l₂ : List Recommendation,
      List.Pairwise (fun x y => y.marginal_abs ≤ x.marginal_abs) l₁ →
      List.Pairwise (fun x y => y.marginal_abs ≤ x.marginal_abs) l₂ →
      (∀ q : ℚ, l₁.filter (fun r => decide (r.marginal_abs = q))
        = l₂.filter (fun r => decide (r.marginal_abs = q))) →
      l₁ = l₂) := by
  refine ⟨?_, ?_, fun q => ?_, fun h => ?_, ?_, ?_⟩
  · rw [recommend_next_fst, List.length_take,
      (sortDescBy_perm (fun r => r.marginal_abs) (candidates view a).1).length_eq]
  · rw [recommend_next_fst]
    exact List.Pairwise.sublist (List.take_sublist n _)
      (sortDescBy_pairwise (fun r => r.marginal_abs) (candidates view a).1)
  · refine ⟨((sortDescBy (fun r => r.marginal_abs) (candidates view a).1).drop n).filter
      (fun r => decide (r.marginal_abs = q)), ?_⟩
    rw [recommend_next_fst]
    calc (candidates view a).1.filter (fun r => decide (r.marginal_abs = q))
        = (sortDescBy (fun r => r.marginal_abs) (candidates view a).1).filter
            (fun r => decide (r.marginal_abs = q)) :=
          (filter_sortDescBy (fun r => r.marginal_abs) (candidates view a).1 q).symm
      _ = ((sortDescBy (fun r => r.marginal_abs) (candidates view a).1).take n
            ++ (sortDescBy (fun r => r.marginal_abs) (candidates view a).1).drop n).filter
            (fun r => decide (r.marginal_abs = q)) := by
          rw [List.take_append_drop]
      _ = ((sortDescBy (fun r => r.marginal_abs) (candidates view a).1).take n).filter
            (fun r => decide (r.marginal_abs = q))
          ++ ((sortDescBy (fun r => r.marginal_abs) (candidates view a).1).drop n).filter
            (fun r => decide (r.marginal_abs = q)) := by
          rw [List.filter_append]
  · rw [recommend_next_fst]
    have hcs : (candidates view a).1 = [] :=
      candList_inactive_nil h ([], view.best_active)
    rw [hcs]
    simp [sortDescBy]
  · refine ⟨sortDescBy (fun r => r.marginal_abs) (candidates view a).1,
      sortDescBy_perm (fun r => r.marginal_abs) (candidates view a).1,
      sortDescBy_pairwise (fun r => r.marginal_abs) (candidates view a).1,
      fun q => filter_sortDescBy (fun r => r.marginal_abs) (candidates view a).1 q,
      recommend_next_fst view a n⟩
  · exact fun l₁ l₂ h₁ h₂ hf => sorted_filter_unique l₁ l₂ h₁ h₂ hf

/-- C5 witness: length, the stable-filter factorization at a sample key,
and the empty-candidates case, at the single-observation view. -/
theorem claim_recommend_sorted_witness :
    ((recommend_next tinyView [] 1).1.length
      = min 1 (candidates tinyView []).1.length) ∧
    (∃ l₂, (candidates tinyView []).1.filter
        (fun r => decide (r.marginal_abs = (0 : ℚ)))
      = (recommend_next tinyView [] 1).1.filter
          (fun r => decide (r.marginal_abs = (0 : ℚ))) ++ l₂) ∧
    (recommend_next tinyView ["1"] 1).1 = [] ∧
    (∃ full : List Recommendation,
      List.Perm full (candidates tinyView []).1 ∧
      List.Pairwise (fun x y => y.marginal_abs ≤ x.marginal_abs) full ∧
      (∀ q : ℚ, full.filter (fun r => decide (r.marginal_abs = q))
        = (candidates tinyView []).1.filter (fun r => decide (r.marginal_abs = q))) ∧
      (recommend_next tinyView [] 1).1 = full.take 1) :=
  ⟨(claim_recommend_sorted tinyView [] 1).1,
    (claim_recommend_sorted tinyView [] 1).2.2.1 0,
    (claim_recommend_sorted tinyView ["1"] 1).2.2.2.1
      (by simp [tinyView, tinyRows, build_views, buildState, buildStep, salesDict,
        keysOf, lookupD, lookupA, dgetD, setA, tLT]),
    (claim_recommend_sorted tinyView [] 1).2.2.2.2.1⟩

/-- C6: in every view built by `build_views`, restricting the minimum to
the active warehouse set can only raise or hold the best time: reading
absent entries as the unreachable sentinel, `best_all[r] <= best_active[r]`
for every region. -/
theorem claim_best_active_ge_best_all (rows : List SpeedRow) (a : List String)
    (s : List SalesRow) (r : String) :
    tle (lookupD (build_views rows a s).best_all r none)
      (lookupD (build_views rows a s).best_active r none) :=
  (stTle_buildState rows a).1 r

/-- C6 witness: the invariant at the single-observation view's region. -/
theorem claim_best_active_ge_best_all_witness :
    tle (lookupD tinyView.best_all "msk" none)
      (lookupD tinyView.best_active "msk" none) :=
  claim_best_active_ge_best_all tinyRows [] [] "msk"

/-- C7: for a view built from validated inputs, coverage is `0` when
`global_opt` is `0` and `global_current / global_opt * 100` otherwise, and
both the view's coverage and every recommendation's `coverage_pct` lie in
`[0, 100]` (exactly, since the model computes in `ℚ`). -/
theorem claim_coverage_bounds (rows : List SpeedRow) (a₁ a₂ : List String)
    (s : List SalesRow) (n : ℕ)
    (hrows : ∀ row ∈ rows, posTime row.time_hours)
    (hsales : ∀ row ∈ s, 0 ≤ row.orders) :
    ((build_views rows a₁ s).coverage
      = (if (build_views rows a₁ s).global_opt = 0 then 0
         else (build_views rows a₁ s).global_current
           / (build_views rows a₁ s).global_opt * 100)) ∧
    (0 ≤ (build_views rows a₁ s).coverage ∧ (build_views rows a₁ s).coverage ≤ 100) ∧
    (∀ rec ∈ (recommend_next (build_views rows a₁ s) a₂ n).1,
      0 ≤ rec.coverage_pct ∧ rec.coverage_pct ≤ 100) := by
  obtain ⟨hgc0, hgcgo, hgo0⟩ := build_views_gs_facts (a := a₁) hrows hsales
  have hcov : (build_views rows a₁ s).coverage
      = (if (build_views rows a₁ s).global_opt = 0 then 0
         else (build_views rows a₁ s).global_current
           / (build_views rows a₁ s).global_opt * 100) := rfl
  refine ⟨hcov, ?_, ?_⟩
  · rw [hcov]
    by_cases hgo : (build_views rows a₁ s).global_opt = 0
    · simp [hgo]
    · have hgopos : 0 < (build_views rows a₁ s).global_opt :=
        lt_of_le_of_ne hgo0 (Ne.symm hgo)
      rw [if_neg hgo]
      constructor
      · exact mul_nonneg (div_nonneg hgc0 hgo0) (by norm_num)
      · have hdiv : (build_views rows a₁ s).global_current
            / (build_views rows a₁ s).global_opt ≤ 1 :=
          (div_le_one hgopos).mpr hgcgo
        calc (build_views rows a₁ s).global_current
            / (build_views rows a₁ s).global_opt * 100
            ≤ 1 * 100 := mul_le_mul_of_nonneg_right hdiv (by norm_num)
          _ = 100 := one_mul 100
  · intro rec h
    rcases rec_gs_bounds hrows hsales h with ⟨ng, _, hcovp, _, hgcng, hnggo⟩
    rw [hcovp]
    by_cases hgo : (build_views rows a₁ s).global_opt = 0
    · simp [hgo]
    · have hgopos : 0 < (build_views rows a₁ s).global_opt :=
        lt_of_le_of_ne hgo0 (Ne.symm hgo)
      rw [if_neg hgo]
      have hng0 : 0 ≤ ng := le_trans hgc0 hgcng
      constructor
      · exact mul_nonneg (div_nonneg hng0 hgo0) (by norm_num)
      · have hdiv : ng / (build_views rows a₁ s).global_opt ≤ 1 :=
          (div_le_one hgopos).mpr hnggo
        calc ng / (build_views rows a₁ s).global_opt * 100
            ≤ 1 * 100 := mul_le_mul_of_nonneg_right hdiv (by norm_num)
          _ = 100 := one_mul 100

/-- C7 witness: coverage of the single-observation view and the coverage
of its top recommendation. -/
theorem claim_coverage_bounds_witness :
    (0 ≤ tinyView.coverage ∧ tinyView.coverage ≤ 100) ∧
    (0 ≤ ((recommend_next tinyView [] 1).1.headD recDefault).coverage_pct ∧
      ((recommend_next tinyView [] 1).1.headD recDefault).coverage_pct ≤ 100) :=
  ⟨(claim_coverage_bounds tinyRows [] [] [] 1
      (by simp [tinyRows, posTime]) (by simp)).2.1,
    (claim_coverage_bounds tinyRows [] [] [] 1
      (by simp [tinyRows, posTime]) (by simp)).2.2 _
      (by simp [tinyView, tinyRows, build_views, buildState, buildStep, salesDict,
        keysOf, pyWeights, computeGlobalSpeed, lookupD, lookupA, speedOf, dgetD, setA,
        tLT, pyMin, recommend_next, candidates, candList, mkRec, newBestFold,
        changesFold, weightedAvgTime, wmul, eadd, sortDescBy, insertDescBy, recDefault])⟩

/-- C8: no engine call divides by zero: with no observations the weight
mapping is empty and both global speeds are `0`; `marginal_pct` is `None`
exactly when `global_current` is `0` and otherwise
`marginal_abs / global_current * 100`; and `coverage`/`coverage_pct`
resolve to `0` whenever `global_opt` is `0`. -/
theorem claim_zero_guards :
    (∀ (a : List String) (s : List SalesRow),
      (build_views [] a s).weights = [] ∧
      (build_views [] a s).global_current = 0 ∧
      (build_views [] a s).global_opt = 0) ∧
    (∀ (view : View) (a : List String) (n : ℕ),
      ∀ rec ∈ (recommend_next view a n).1,
        (rec.marginal_pct = none ↔ view.global_current = 0) ∧
        (view.global_current ≠ 0 →
          rec.marginal_pct = some (rec.marginal_abs / view.global_current * 100))) ∧
    (∀ (view : View) (a : List String) (n : ℕ),
      view.global_opt = 0 →
        ∀ rec ∈ (recommend_next view a n).1, rec.coverage_pct = 0) ∧
    (∀ (rows : List SpeedRow) (a : List String) (s : List SalesRow),
      (build_views rows a s).global_opt = 0 → (build_views rows a s).coverage = 0) := by
  refine ⟨fun a s => ?_, fun view a n rec h => ?_, fun view a n hgo rec h => ?_,
    fun rows a s hgo => ?_⟩
  · have hw : (build_views [] a s).weights = pyWeights [] (salesDict s) := rfl
    have hw0 : (build_views [] a s).weights = [] := by
      rw [hw, pyWeights_nil]
    refine ⟨hw0, ?_, ?_⟩
    · have : (build_views [] a s).global_current
          = computeGlobalSpeed (buildState [] a).best_active (pyWeights [] (salesDict s)) :=
        rfl
      rw [this, pyWeights_nil]
      rfl
    · have : (build_views [] a s).global_opt
          = computeGlobalSpeed (buildState [] a).best_all (pyWeights [] (salesDict s)) :=
        rfl
      rw [this, pyWeights_nil]
      rfl
  · rcases mem_recommend_next h with ⟨w, byr, ba', hmem, hw, heq, hba⟩
    rw [heq, mkRec_marginal_pct]
    by_cases hgc : view.global_current = 0
    · simp [hgc]
    · simp [hgc]
  · rcases mem_recommend_next h with ⟨w, byr, ba', hmem, hw, heq, hba⟩
    rw [heq, mkRec_coverage_pct, if_pos hgo]
  · have hcov : (build_views rows a s).coverage
        = (if (build_views rows a s).global_opt = 0 then 0
           else (build_views rows a s).global_current
             / (build_views rows a s).global_opt * 100) := rfl
    rw [hcov, if_pos hgo]

/-- C8 witness: the empty-region case, and the cold-start `marginal_pct`
(single region, no active warehouses). -/
theorem claim_zero_guards_witness :
    ((build_views [] [] []).weights = [] ∧
      (build_views [] [] []).global_current = 0 ∧
      (build_views [] [] []).global_opt = 0) ∧
    (((recommend_next tinyView [] 1).1.headD recDefault).marginal_pct = none ↔
      tinyView.global_current = 0) :=
  ⟨claim_zero_guards.1 [] [],
    (claim_zero_guards.2.1 tinyView [] 1 _
      (by simp [tinyView, tinyRows, build_views, buildState, buildStep, salesDict,
        keysOf, pyWeights, computeGlobalSpeed, lookupD, lookupA, speedOf, dgetD, setA,
        tLT, pyMin, recommend_next, candidates, candList, mkRec, newBestFold,
        changesFold, weightedAvgTime, wmul, eadd, sortDescBy, insertDescBy,
        recDefault])).1⟩

/-- C9 (counterexample): `recommend_next` mutates the view it was given:
with one region observed only through an inactive warehouse, `best_active`
has no keys before the call and gains the region key (with the sentinel
value) during the call, through the `defaultdict` read
`view["best_active"][r]`. -/
theorem claim_recommend_mutates :
    (recommend_next tinyView [] 1).2.best_active ≠ tinyView.best_active := by
  simp [tinyView, tinyRows, build_views, buildState, buildStep, salesDict, keysOf,
    pyWeights, computeGlobalSpeed, lookupD, lookupA, speedOf, dgetD, setA, tLT, pyMin,
    recommend_next, candidates, candList, mkRec, newBestFold, changesFold,
    weightedAvgTime, wmul, eadd, sortDescBy, insertDescBy]

/-- C9 (amended): `recommend_next` never mutates the active set, and
mutates the view only through `defaultdict` default-insertions into
`best_active`: every other field is returned unchanged, every
`best_active` lookup (with the sentinel default) is unchanged, and any new
key comes from `region_name`. -/
theorem claim_recommend_frame (view : View) (a : List String) (n : ℕ) :
    ((recommend_next view a n).2.region_name = view.region_name ∧
     (recommend_next view a n).2.best_all = view.best_all ∧
     (recommend_next view a n).2.best_by_wh = view.best_by_wh ∧
     (recommend_next view a n).2.weights = view.weights ∧
     (recommend_next view a n).2.global_current = view.global_current ∧
     (recommend_next view a n).2.global_opt = view.global_opt ∧
     (recommend_next view a n).2.coverage = view.coverage ∧
     (recommend_next view a n).2.warehouse_names = view.warehouse_names ∧
     (recommend_next view a n).2.avg_time_current = view.avg_time_current) ∧
    (∀ r, lookupD (recommend_next view a n).2.best_active r none
      = lookupD view.best_active r none) ∧
    (∀ p ∈ (recommend_next view a n).2.best_active,
      p.1 ∈ keysOf view.best_active ∨ p.1 ∈ keysOf view.region_name) := by
  refine ⟨⟨rfl, rfl, rfl, rfl, rfl, rfl, rfl, rfl, rfl⟩, fun r => ?_, fun p hp => ?_⟩
  · exact candList_snd_lookup view a view.best_by_wh ([], view.best_active) r
  · have hp' : p ∈ (candidates view a).2 := hp
    rcases candList_snd_keys hp' with h | h
    · exact Or.inl (List.mem_map_of_mem Prod.fst h)
    · exact Or.inr h

/-- C9 witness (of the amended statement): frame facts at the
single-observation view. -/
theorem claim_recommend_frame_witness :
    (recommend_next tinyView [] 1).2.weights = tinyView.weights ∧
    lookupD (recommend_next tinyView [] 1).2.best_active "msk" none
      = lookupD tinyView.best_active "msk" none :=
  ⟨(claim_recommend_frame tinyView [] 1).1.2.2.2.1,
    (claim_recommend_frame tinyView [] 1).2.1 "msk"⟩

/-- C10: with a strictly positive `global_opt`, every recommendation's
`coverage_pct` is at least the view's coverage and at most `100`:
hypothetically activating one more warehouse never lowers coverage and
never beats the all-warehouse optimum. -/
theorem claim_coverage_pct_monotone (rows : List SpeedRow) (a₁ a₂ : List String)
    (s : List SalesRow) (n : ℕ)
    (hrows : ∀ row ∈ rows, posTime row.time_hours)
    (hsales : ∀ row ∈ s, 0 ≤ row.orders)
    (hopt : 0 < (build_views rows a₁ s).global_opt) :
    ∀ rec ∈ (recommend_next (build_views rows a₁ s) a₂ n).1,
      (build_views rows a₁ s).coverage ≤ rec.coverage_pct ∧
        rec.coverage_pct ≤ 100 := by
  intro rec h
  obtain ⟨hgc0, hgcgo, hgo0⟩ := build_views_gs_facts (a := a₁) hrows hsales
  rcases rec_gs_bounds hrows hsales h with ⟨ng, _, hcovp, _, hgcng, hnggo⟩
  have hgone : (build_views rows a₁ s).global_opt ≠ 0 := ne_of_gt hopt
  have hcov : (build_views rows a₁ s).coverage
      = (if (build_views rows a₁ s).global_opt = 0 then 0
         else (build_views rows a₁ s).global_current
           / (build_views rows a₁ s).global_opt * 100) := rfl
  rw [hcov, hcovp, if_neg hgone, if_neg hgone]
  constructor
  · refine mul_le_mul_of_nonneg_right ?_ (by norm_num)
    exact (div_le_div_iff_of_pos_right hopt).mpr hgcng
  · have hdiv : ng / (build_views rows a₁ s).global_opt ≤ 1 :=
      (div_le_one hopt).mpr hnggo
    calc ng / (build_views rows a₁ s).global_opt * 100
        ≤ 1 * 100 := mul_le_mul_of_nonneg_right hdiv (by norm_num)
      _ = 100 := one_mul 100

/-- C10 witness: the single-observation cold-start view; the top
recommendation's coverage dominates the view's coverage. -/
theorem claim_coverage_pct_monotone_witness :
    tinyView.coverage
      ≤ ((recommend_next tinyView [] 1).1.headD recDefault).coverage_pct ∧
    ((recommend_next tinyView [] 1).1.headD recDefault).coverage_pct ≤ 100 :=
  claim_coverage_pct_monotone tinyRows [] [] [] 1
    (by simp [tinyRows, posTime])
    (by simp)
    (by simp [tinyView, tinyRows, build_views, buildState, buildStep, salesDict,
      keysOf, pyWeights, computeGlobalSpeed, lookupD, lookupA, speedOf, dgetD, setA,
      tLT, pyMin]) _
    (by simp [tinyView, tinyRows, build_views, buildState, buildStep, salesDict,
      keysOf, pyWeights, computeGlobalSpeed, lookupD, lookupA, speedOf, dgetD, setA,
      tLT, pyMin, recommend_next, candidates, candList, mkRec, newBestFold,
      changesFold, weightedAvgTime, wmul, eadd, sortDescBy, insertDescBy, recDefault])

end WbBot
